import Mathlib

/-!
# Verification of the yupsh `base64` command core

Shallow embedding of the encode/decode engine of the yupsh `base64`
command (Go).  Strings are modelled as `List Char`; raw bytes as `Nat`
(with explicit `< 256` bounds where they matter); Go's `context.Context`
as an optional poll index from which the context counts as cancelled;
readers as chunk lists; writers as accumulated output.
-/

namespace YupshBase64

/-- Number of bytes of the UTF-8 encoding of a rune, as used by Go's
`for i, char := range s`, which advances the index `i` by this amount. -/
def utf8Len (c : Char) : Nat :=
  if c.toNat < 0x80 then 1
  else if c.toNat < 0x800 then 2
  else if c.toNat < 0x10000 then 3
  else 4

/-- Embeds the character test of `removeNonBase64` (source lines 193-197):
`(char >= 'A' && char <= 'Z') || (char >= 'a' && char <= 'z') ||
 (char >= '0' && char <= '9') || char == '+' || char == '/' || char == '='`,
written on code points (65='A', 90='Z', 97='a', 122='z', 48='0', 57='9',
43='+', 47='/', 61='='). -/
def isB64c (c : Char) : Bool :=
  (65 ≤ c.toNat && c.toNat ≤ 90) || (97 ≤ c.toNat && c.toNat ≤ 122) ||
    (48 ≤ c.toNat && c.toNat ≤ 57) || c.toNat == 43 || c.toNat == 47 || c.toNat == 61

/-- Go's `unicode.IsSpace`: '\t' '\n' '\v' '\f' '\r' ' ' U+0085 U+00A0
plus the non-Latin-1 White_Space code points. -/
def goIsSpace (c : Char) : Bool :=
  c.toNat == 9 || c.toNat == 10 || c.toNat == 11 || c.toNat == 12 || c.toNat == 13 ||
    c.toNat == 32 || c.toNat == 0x85 || c.toNat == 0xA0 || c.toNat == 0x1680 ||
    (0x2000 ≤ c.toNat && c.toNat ≤ 0x200A) || c.toNat == 0x2028 || c.toNat == 0x2029 ||
    c.toNat == 0x202F || c.toNat == 0x205F || c.toNat == 0x3000

/-- The RFC 4648 standard base64 alphabet used by Go's
`encoding/base64.StdEncoding`. -/
def b64Alphabet : List Char :=
  "ABCDEFGHIJKLMNOPQRSTUVWXYZabcdefghijklmnopqrstuvwxyz0123456789+/".toList

/-- Character for a six-bit group. -/
def b64Char (n : Nat) : Char := b64Alphabet.getD n 'A'

/-- Position of a character in the standard alphabet, `none` when it is
not an alphabet character. -/
def sextetIdx (c : Char) : Option Nat :=
  go b64Alphabet
where
  go : List Char → Option Nat
    | [] => none
    | d :: ds => if d = c then some 0 else (go ds).map (· + 1)

/-- `base64.StdEncoding.EncodeToString`: big-endian 24-bit groups of three
bytes become four alphabet characters; a final group of one or two bytes is
padded with `'='`.  Bytes are meant to be `< 256`. -/
def encodeB64 : List Nat → List Char
  | [] => []
  | [b0] => [b64Char (b0 / 4), b64Char (b0 % 4 * 16), '=', '=']
  | [b0, b1] => [b64Char (b0 / 4), b64Char (b0 % 4 * 16 + b1 / 16), b64Char (b1 % 16 * 4), '=']
  | b0 :: b1 :: b2 :: rest =>
      b64Char (b0 / 4) :: b64Char (b0 % 4 * 16 + b1 / 16) ::
        b64Char (b1 % 16 * 4 + b2 / 64) :: b64Char (b2 % 64) :: encodeB64 rest

/-- Strict padded decoding of four-character quanta: the input length must
be a multiple of four, `'='` padding may appear only as the last one or two
characters of the whole input, all other characters must be alphabet
characters. -/
def strictDecode : List Char → Option (List Nat)
  | [] => some []
  | c0 :: c1 :: c2 :: c3 :: rest =>
    if c3 = '=' then
      if rest = [] then
        if c2 = '=' then
          match sextetIdx c0, sextetIdx c1 with
          | some d0, some d1 => some [d0 * 4 + d1 / 16]
          | _, _ => none
        else
          match sextetIdx c0, sextetIdx c1, sextetIdx c2 with
          | some d0, some d1, some d2 => some [d0 * 4 + d1 / 16, d1 % 16 * 16 + d2 / 4]
          | _, _, _ => none
      else none
    else
      match sextetIdx c0, sextetIdx c1, sextetIdx c2, sextetIdx c3, strictDecode rest with
      | some d0, some d1, some d2, some d3, some tail =>
          some ((d0 * 4 + d1 / 16) :: (d1 % 16 * 16 + d2 / 4) :: (d2 % 4 * 64 + d3) :: tail)
      | _, _, _, _, _ => none
  | _ => none

/-- Modelled from the spec: `base64.StdEncoding.DecodeString` of Go's
standard library (not part of this repository) — "standard base64 decoding
with padding required (RFC 4648 standard alphabet only)".  Go's decoder
additionally skips `'\r'` and `'\n'` characters anywhere in the input,
which is modelled by the initial filter. -/
def decodeGo (s : List Char) : Option (List Nat) :=
  strictDecode (s.filter fun c => !(c == '\r' || c == '\n'))

/-- Go's `strings.TrimSpace`: remove leading and trailing white space. -/
def trimSpace (s : List Char) : List Char :=
  ((s.dropWhile goIsSpace).reverse.dropWhile goIsSpace).reverse

/-- Embeds `removeNonBase64` (source lines 190-201): keep exactly the
characters passing the alphabet test, in order. -/
def removeNonBase64 : List Char → List Char
  | [] => []
  | c :: cs => (if isB64c c then [c] else []) ++ removeNonBase64 cs

/-- Loop of `wrapString` (source lines 157-162): `i` is the byte offset of
the current rune (Go's `range` index); a newline is inserted before the
rune when `i > 0 && i%width == 0`. -/
def wrapAux (W : Nat) : List Char → Nat → List Char
  | [], _ => []
  | c :: cs, i =>
      (if 0 < i ∧ i % W = 0 then ['\n', c] else [c]) ++ wrapAux W cs (i + utf8Len c)

/-- Embeds `wrapString` (source lines 151-165): width `<= 0` returns the
input unchanged, otherwise newlines are inserted by the range loop. -/
def wrapString (s : List Char) (width : Int) : List Char :=
  if width ≤ 0 then s else wrapAux width.toNat s 0

/-- Per-line processing of `decodeSource` (source lines 120-127) with the
cancellation checks elided: the scanned line is always trimmed, and
additionally filtered through `removeNonBase64` when `ignoreGarbage` is
set. -/
def processLine (ig : Bool) (l : List Char) : List Char :=
  if ig then removeNonBase64 (trimSpace l) else trimSpace l

/-- Split at every newline (an empty input yields one empty part). -/
def splitNl : List Char → List (List Char)
  | [] => [[]]
  | c :: cs =>
    if c = '\n' then [] :: splitNl cs
    else
      match splitNl cs with
      | [] => [[c]]
      | t :: ts => (c :: t) :: ts

/-- `bufio.dropCR`: remove one terminal carriage return from a token. -/
def dropCR (l : List Char) : List Char :=
  if l.getLast? = some '\r' then l.dropLast else l

/-- `bufio.Scanner` with `bufio.ScanLines`: tokens are the newline-separated
parts (with a terminal `'\r'` stripped); a trailing newline does not
produce a final empty token, and an empty input produces no token. -/
def scanLines (s : List Char) : List (List Char) :=
  let parts := splitNl s
  (if parts.getLast? = some [] then parts.dropLast else parts).map dropCR

/-- Concatenation of a list of lists (the `strings.Builder` accumulation
of `decodeSource`, and the `allData` accumulation of `encodeSource`). -/
def concatAll : List (List α) → List α
  | [] => []
  | l :: ls => l ++ concatAll ls

/-- The configuration record (`opt.Flags`): decode mode, garbage
filtering, forced wrapping and the wrap column (a Go `int`). -/
structure Flags where
  decode : Bool
  ignoreGarbage : Bool
  wrap : Bool
  wrapWidth : Int
deriving DecidableEq

/-- Embeds the `Base64` constructor (source lines 24-31): after option
binding, a wrap width equal to `0` is replaced by the default `76`. -/
def Base64 (fl : Flags) : Flags :=
  if fl.wrapWidth = 0 then { fl with wrapWidth := 76 } else fl

/-- The error kinds of §7 of the design: cancellation, read failure,
decode failure and write failure are pairwise distinct values. -/
inductive GoErr
  | cancelled
  | readErr
  | decodeErr
  | writeErr
deriving DecidableEq

/-- Diagnostic messages printed to the error channel by `decodeSource`. -/
inductive StderrMsg
  | readMsg
  | decodeMsg
deriving DecidableEq

/-- Modelled from the spec: `yup.CheckContextCancellation` of the yupsh
framework (not part of this repository) — "inspect the active cancellation
signal; if it has transitioned to cancelled, immediately fail with a
cancellation error; otherwise return with no effect".  The context is
`some n` when the signal transitions to cancelled at poll index `n`
(remaining cancelled from then on, observed by every later poll), `none`
when it never fires; `t` is the index of the current poll. -/
def checkContextCancellation (ctx : Option Nat) (t : Nat) : Option GoErr :=
  match ctx with
  | none => none
  | some n => if n ≤ t then some GoErr.cancelled else none

/-- Chunked read loop of `encodeSource` (source lines 66-81): before each
`Read` the cancellation signal is polled; each successful read appends a
chunk to `allData`; after the last chunk the reader reports either
end-of-stream or (when `rf` is set) a read failure.  The result carries
the next poll index. -/
def encChunkLoop (ctx : Option Nat) (rf : Bool) :
    List (List Nat) → List Nat → Nat → Except (GoErr × Nat) (List Nat × Nat)
  | chunks, acc, t =>
    match checkContextCancellation ctx t with
    | some e => .error (e, t + 1)
    | none =>
      match chunks with
      | [] => if rf then .error (GoErr.readErr, t + 1) else .ok (acc, t + 1)
      | ch :: rest => encChunkLoop ctx rf rest (acc ++ ch) (t + 1)

/-- Loop of `wrapStringWithContext` (source lines 167-188): same newline
insertion as `wrapAux`, with a cancellation poll whenever the byte offset
`i` satisfies `i % 1000 == 0`; on cancellation the partial result is
discarded. -/
def wrapAuxCtx (ctx : Option Nat) (W : Nat) :
    List Char → Nat → Nat → Except (GoErr × Nat) (List Char × Nat)
  | [], _, t => .ok ([], t)
  | c :: cs, i, t =>
    if i % 1000 = 0 then
      match checkContextCancellation ctx t with
      | some e => .error (e, t + 1)
      | none =>
        match wrapAuxCtx ctx W cs (i + utf8Len c) (t + 1) with
        | .error r => .error r
        | .ok (res, t') => .ok ((if 0 < i ∧ i % W = 0 then ['\n', c] else [c]) ++ res, t')
    else
      match wrapAuxCtx ctx W cs (i + utf8Len c) t with
      | .error r => .error r
      | .ok (res, t') => .ok ((if 0 < i ∧ i % W = 0 then ['\n', c] else [c]) ++ res, t')

/-- Embeds `wrapStringWithContext` (source lines 167-188). -/
def wrapStringWithContext (ctx : Option Nat) (s : List Char) (width : Int) (t : Nat) :
    Except (GoErr × Nat) (List Char × Nat) :=
  if width ≤ 0 then .ok (s, t) else wrapAuxCtx ctx width.toNat s 0 t

/-- Embeds `removeNonBase64WithContext` (source lines 203-221): the filter
of `removeNonBase64` with a cancellation poll whenever the byte offset `i`
satisfies `i % 1000 == 0`; on cancellation the partial result is
discarded. -/
def removeNonBase64WithContext (ctx : Option Nat) :
    List Char → Nat → Nat → Except (GoErr × Nat) (List Char × Nat)
  | [], _, t => .ok ([], t)
  | c :: cs, i, t =>
    if i % 1000 = 0 then
      match checkContextCancellation ctx t with
      | some e => .error (e, t + 1)
      | none =>
        match removeNonBase64WithContext ctx cs (i + utf8Len c) (t + 1) with
        | .error r => .error r
        | .ok (res, t') => .ok ((if isB64c c then [c] else []) ++ res, t')
    else
      match removeNonBase64WithContext ctx cs (i + utf8Len c) t with
      | .error r => .error r
      | .ok (res, t') => .ok ((if isB64c c then [c] else []) ++ res, t')

/-- Scan loop of `decodeSource` (source lines 119-129): before each line is
consumed the cancellation signal is polled (`yup.ScanWithContext` — spec:
"Before each line is consumed, checks the cancellation signal"); the line
is trimmed, filtered through `removeNonBase64WithContext` when
`ignoreGarbage` is set, and appended to the accumulated base64 text. -/
def lineLoop (ctx : Option Nat) (ig : Bool) :
    List (List Char) → List Char → Nat → Except (GoErr × Nat) (List Char × Nat)
  | [], acc, t => .ok (acc, t)
  | l :: ls, acc, t =>
    match checkContextCancellation ctx t with
    | some e => .error (e, t + 1)
    | none =>
      if ig then
        match removeNonBase64WithContext ctx (trimSpace l) 0 (t + 1) with
        | .error r => .error r
        | .ok (cl, t') => lineLoop ctx ig ls (acc ++ cl) t'
      else lineLoop ctx ig ls (acc ++ trimSpace l) (t + 1)

/-- Result of one `encodeSource` invocation: bytes written to the output
sink, the returned error, and the number of cancellation polls
performed. -/
structure EncRes where
  out : List Char
  err : Option GoErr
  polls : Nat
deriving DecidableEq

/-- Result of one `decodeSource` invocation: bytes written to the output
sink, messages written to the error channel, the returned error, and the
number of cancellation polls performed. -/
structure DecRes where
  out : List Nat
  stderr : List StderrMsg
  err : Option GoErr
  polls : Nat
deriving DecidableEq

/-- Embeds `encodeSource` (source lines 54-95): an initial cancellation
check, the chunked read loop, `base64` encoding of the accumulated bytes,
optional wrapping (when the wrap flag is set or the width is positive, and
the width is positive), and the final `Fprintln` which writes the encoded
text plus one newline. -/
def encodeSource (ctx : Option Nat) (chunks : List (List Nat)) (rf : Bool) (fl : Flags) :
    EncRes :=
  match checkContextCancellation ctx 0 with
  | some e => ⟨[], some e, 1⟩
  | none =>
    match encChunkLoop ctx rf chunks [] 1 with
    | .error (e, t) => ⟨[], some e, t⟩
    | .ok (allData, t) =>
      let encoded := encodeB64 allData
      if (fl.wrap = true ∨ 0 < fl.wrapWidth) ∧ 0 < fl.wrapWidth then
        match wrapStringWithContext ctx encoded fl.wrapWidth t with
        | .error (e, t') => ⟨[], some e, t'⟩
        | .ok (wrapped, t') => ⟨wrapped ++ ['\n'], none, t'⟩
      else ⟨encoded ++ ['\n'], none, t⟩

/-- Embeds `decodeSource` (source lines 110-149): an initial cancellation
check, the line scan loop over the text of the source, a final
cancellation check, the `scanner.Err()` check (`rf` marks a read failure),
strict base64 decoding of the concatenated text, and the write of the
decoded bytes.  Scan and decode failures are also reported on the error
channel. -/
def decodeSource (ctx : Option Nat) (fl : Flags) (text : List Char) (rf : Bool) : DecRes :=
  match checkContextCancellation ctx 0 with
  | some e => ⟨[], [], some e, 1⟩
  | none =>
    match lineLoop ctx fl.ignoreGarbage (scanLines text) [] 1 with
    | .error (e, t) => ⟨[], [], some e, t⟩
    | .ok (encodedData, t) =>
      match checkContextCancellation ctx t with
      | some e => ⟨[], [], some e, t + 1⟩
      | none =>
        if rf then ⟨[], [StderrMsg.readMsg], some GoErr.readErr, t + 1⟩
        else
          match decodeGo encodedData with
          | none => ⟨[], [StderrMsg.decodeMsg], some GoErr.decodeErr, t + 1⟩
          | some decoded => ⟨decoded, [], none, t + 1⟩

/-- Polls performed by the `i % 1000 == 0` pattern of
`wrapStringWithContext` and `removeNonBase64WithContext`, starting at byte
offset `i`. -/
def pollsEvery1000 : List Char → Nat → Nat
  | [], _ => 0
  | c :: cs, i => (if i % 1000 = 0 then 1 else 0) + pollsEvery1000 cs (i + utf8Len c)

/-- Polls performed by `lineLoop`. -/
def linePolls (ig : Bool) : List (List Char) → Nat
  | [] => 0
  | l :: ls => 1 + (if ig then pollsEvery1000 (trimSpace l) 0 else 0) + linePolls ig ls

/-! ## Character-class facts -/

theorem char_ne_of_toNat {c d : Char} (h : c.toNat ≠ d.toNat) : c ≠ d :=
  fun e => h (by rw [e])

theorem isB64c_toNat {c : Char} (h : isB64c c = true) :
    (65 ≤ c.toNat ∧ c.toNat ≤ 90) ∨ (97 ≤ c.toNat ∧ c.toNat ≤ 122) ∨
      (48 ≤ c.toNat ∧ c.toNat ≤ 57) ∨ c.toNat = 43 ∨ c.toNat = 47 ∨ c.toNat = 61 := by
  simpa [isB64c, or_assoc] using h

theorem isB64c_not_space {c : Char} (h : isB64c c = true) : goIsSpace c = false := by
  have := isB64c_toNat h
  simp only [goIsSpace]
  simp only [Bool.or_eq_false_iff, Bool.and_eq_false_iff]
  refine ⟨⟨⟨⟨⟨⟨⟨⟨⟨⟨?_, ?_⟩, ?_⟩, ?_⟩, ?_⟩, ?_⟩, ?_⟩, ?_⟩, ?_⟩, ?_⟩, ?_⟩ <;>
    simp <;> omega

theorem isB64c_ne_nl {c : Char} (h : isB64c c = true) : c ≠ '\n' :=
  char_ne_of_toNat (by have := isB64c_toNat h; have h10 : ('\n').toNat = 10 := rfl; omega)

theorem isB64c_ne_cr {c : Char} (h : isB64c c = true) : c ≠ '\r' :=
  char_ne_of_toNat (by have := isB64c_toNat h; have h13 : ('\r').toNat = 13 := rfl; omega)

theorem isB64c_utf8Len {c : Char} (h : isB64c c = true) : utf8Len c = 1 := by
  have := isB64c_toNat h
  unfold utf8Len
  rw [if_pos (by omega)]

theorem space_not_isB64c {c : Char} (h : goIsSpace c = true) : isB64c c = false := by
  cases hb : isB64c c with
  | false => rfl
  | true => rw [isB64c_not_space hb] at h; cases h

/-! ## Alphabet facts -/

theorem sextetIdx_b64Char : ∀ n < 64, sextetIdx (b64Char n) = some n := by decide

theorem isB64c_b64Char : ∀ n < 64, isB64c (b64Char n) = true := by decide

theorem b64Char_ne_pad : ∀ n < 64, b64Char n ≠ '=' := by decide

theorem isB64c_pad : isB64c '=' = true := by decide

/-! ## The base64 round trip -/

theorem encodeB64_clean : ∀ (B : List Nat), (∀ b ∈ B, b < 256) →
    ∀ c ∈ encodeB64 B, isB64c c = true
  | [], _, _, hc => by cases hc
  | [b0], h, c, hc => by
      have hb0 : b0 < 256 := h b0 (by simp)
      simp only [encodeB64, List.mem_cons, List.not_mem_nil, or_false] at hc
      rcases hc with h | h | h | h <;> subst h
      · exact isB64c_b64Char _ (by omega)
      · exact isB64c_b64Char _ (by omega)
      · exact isB64c_pad
      · exact isB64c_pad
  | [b0, b1], h, c, hc => by
      have hb0 : b0 < 256 := h b0 (by simp)
      have hb1 : b1 < 256 := h b1 (by simp)
      simp only [encodeB64, List.mem_cons, List.not_mem_nil, or_false] at hc
      rcases hc with h | h | h | h <;> subst h
      · exact isB64c_b64Char _ (by omega)
      · exact isB64c_b64Char _ (by omega)
      · exact isB64c_b64Char _ (by omega)
      · exact isB64c_pad
  | b0 :: b1 :: b2 :: rest, h, c, hc => by
      have hb0 : b0 < 256 := h b0 (by simp)
      have hb1 : b1 < 256 := h b1 (by simp)
      have hb2 : b2 < 256 := h b2 (by simp)
      simp only [encodeB64, List.mem_cons] at hc
      rcases hc with hm | hm | hm | hm | hm
      · subst hm; exact isB64c_b64Char _ (by omega)
      · subst hm; exact isB64c_b64Char _ (by omega)
      · subst hm; exact isB64c_b64Char _ (by omega)
      · subst hm; exact isB64c_b64Char _ (by omega)
      · exact encodeB64_clean rest (fun b hb => h b (by simp [hb])) c hm

theorem strictDecode_encodeB64 : ∀ (B : List Nat), (∀ b ∈ B, b < 256) →
    strictDecode (encodeB64 B) = some B
  | [], _ => rfl
  | [b0], h => by
      have hb0 : b0 < 256 := h b0 (by simp)
      have e0 := sextetIdx_b64Char (b0 / 4) (by omega)
      have e1 := sextetIdx_b64Char (b0 % 4 * 16) (by omega)
      simp [encodeB64, strictDecode, e0, e1]
      omega
  | [b0, b1], h => by
      have hb0 : b0 < 256 := h b0 (by simp)
      have hb1 : b1 < 256 := h b1 (by simp)
      have e0 := sextetIdx_b64Char (b0 / 4) (by omega)
      have e1 := sextetIdx_b64Char (b0 % 4 * 16 + b1 / 16) (by omega)
      have e2 := sextetIdx_b64Char (b1 % 16 * 4) (by omega)
      have hne := b64Char_ne_pad (b1 % 16 * 4) (by omega)
      simp [encodeB64, strictDecode, e0, e1, e2, hne]
      omega
  | b0 :: b1 :: b2 :: rest, h => by
      have hb0 : b0 < 256 := h b0 (by simp)
      have hb1 : b1 < 256 := h b1 (by simp)
      have hb2 : b2 < 256 := h b2 (by simp)
      have IH := strictDecode_encodeB64 rest (fun b hb => h b (by simp [hb]))
      have e0 := sextetIdx_b64Char (b0 / 4) (by omega)
      have e1 := sextetIdx_b64Char (b0 % 4 * 16 + b1 / 16) (by omega)
      have e2 := sextetIdx_b64Char (b1 % 16 * 4 + b2 / 64) (by omega)
      have e3 := sextetIdx_b64Char (b2 % 64) (by omega)
      have hne := b64Char_ne_pad (b2 % 64) (by omega)
      simp [encodeB64, strictDecode, e0, e1, e2, e3, hne, IH]
      omega

/-! ## Splitting, scanning, trimming, filtering -/

theorem concatAll_append (xs ys : List (List α)) :
    concatAll (xs ++ ys) = concatAll xs ++ concatAll ys := by
  induction xs with
  | nil => rfl
  | cons l ls ih => simp [concatAll, ih]

theorem splitNl_ne_nil (s : List Char) : splitNl s ≠ [] := by
  cases s with
  | nil => simp [splitNl]
  | cons c cs =>
    simp only [splitNl]
    split
    · simp
    · split <;> simp

theorem concatAll_splitNl (s : List Char) :
    concatAll (splitNl s) = s.filter (fun c => !(c == '\n')) := by
  induction s with
  | nil => rfl
  | cons c cs ih =>
    simp only [splitNl]
    by_cases hc : c = '\n'
    · subst hc
      simp [concatAll, ih, List.filter_cons]
    · rw [if_neg hc]
      have hne := splitNl_ne_nil cs
      rcases hp : splitNl cs with _ | ⟨t, ts⟩
      · exact absurd hp hne
      · rw [hp] at ih
        simp only [concatAll] at ih ⊢
        simp [List.filter_cons, hc, ← ih]

theorem mem_splitNl {s l : List Char} {c : Char}
    (hl : l ∈ splitNl s) (hc : c ∈ l) : c ∈ s ∧ c ≠ '\n' := by
  induction s generalizing l with
  | nil =>
    simp [splitNl] at hl
    subst hl
    cases hc
  | cons a as ih =>
    simp only [splitNl] at hl
    by_cases ha : a = '\n'
    · rw [if_pos ha] at hl
      rcases List.mem_cons.mp hl with h | h
      · subst h; cases hc
      · have := ih h hc
        exact ⟨List.mem_cons_of_mem _ this.1, this.2⟩
    · rw [if_neg ha] at hl
      have hne := splitNl_ne_nil as
      rcases hp : splitNl as with _ | ⟨t, ts⟩
      · exact absurd hp hne
      · rw [hp] at hl
        rcases List.mem_cons.mp hl with h | h
        · subst h
          rcases List.mem_cons.mp hc with h' | h'
          · subst h'; exact ⟨List.mem_cons_self _ _, ha⟩
          · have := ih (hp ▸ List.mem_cons_self t ts) h'
            exact ⟨List.mem_cons_of_mem _ this.1, this.2⟩
        · have := ih (hp ▸ List.mem_cons_of_mem t h) hc
          exact ⟨List.mem_cons_of_mem _ this.1, this.2⟩

theorem splitNl_no_nl {s : List Char} (h : ∀ c ∈ s, c ≠ '\n') : splitNl s = [s] := by
  induction s with
  | nil => rfl
  | cons c cs ih =>
    simp only [splitNl]
    rw [if_neg (h c (List.mem_cons_self _ _))]
    rw [ih fun d hd => h d (List.mem_cons_of_mem _ hd)]

theorem splitNl_append_nl {a : List Char} (b : List Char) (h : ∀ c ∈ a, c ≠ '\n') :
    splitNl (a ++ '\n' :: b) = a :: splitNl b := by
  induction a with
  | nil => simp [splitNl]
  | cons c cs ih =>
    simp only [List.cons_append, splitNl]
    rw [if_neg (h c (List.mem_cons_self _ _))]
    simp only [List.append_eq]
    rw [ih fun d hd => h d (List.mem_cons_of_mem _ hd)]

theorem dropCR_subset {l : List Char} {c : Char} (h : c ∈ dropCR l) : c ∈ l := by
  unfold dropCR at h
  split at h
  · exact List.dropLast_subset l h
  · exact h

theorem dropCR_eq_self {l : List Char} (h : ∀ c ∈ l, c ≠ '\r') : dropCR l = l := by
  unfold dropCR
  split
  · next hl =>
    exfalso
    rcases List.getLast?_eq_some_iff.mp hl with ⟨l', hl'⟩
    exact h '\r' (hl' ▸ List.mem_append_right l' (List.mem_singleton_self _)) rfl
  · rfl

theorem mem_scanLines {s l : List Char} {c : Char}
    (hl : l ∈ scanLines s) (hc : c ∈ l) : c ∈ s ∧ c ≠ '\n' := by
  unfold scanLines at hl
  rcases List.mem_map.mp hl with ⟨l', hl', rfl⟩
  have hc' := dropCR_subset hc
  have hmem : l' ∈ splitNl s := by
    revert hl'
    split
    · exact fun h => List.dropLast_subset _ h
    · exact fun h => h
  exact mem_splitNl hmem hc'

theorem concatAll_scanLines {s : List Char} (h : ∀ c ∈ s, c ≠ '\r') :
    concatAll (scanLines s) = s.filter (fun c => !(c == '\n')) := by
  have hdrop : ∀ l ∈ splitNl s, dropCR l = l := by
    intro l hl
    exact dropCR_eq_self fun c hc => h c (mem_splitNl hl hc).1
  have hparts : ∀ (parts : List (List Char)), (∀ l ∈ parts, l ∈ splitNl s) →
      (parts.map dropCR) = parts := by
    intro parts
    induction parts with
    | nil => intro _; rfl
    | cons l ls ih =>
      intro hsub
      simp only [List.map_cons]
      rw [hdrop l (hsub l (List.mem_cons_self _ _)),
        ih fun x hx => hsub x (List.mem_cons_of_mem _ hx)]
  by_cases hlast : (splitNl s).getLast? = some []
  · rw [show scanLines s = ((splitNl s).dropLast).map dropCR by simp [scanLines, hlast]]
    rw [hparts _ fun l hl => List.dropLast_subset _ hl]
    have hne := splitNl_ne_nil s
    have hsplit := List.dropLast_append_getLast hne
    have hlastval : (splitNl s).getLast hne = [] := by
      rw [List.getLast?_eq_getLast _ hne] at hlast
      exact Option.some.inj hlast
    calc concatAll (splitNl s).dropLast
        = concatAll ((splitNl s).dropLast ++ [[]]) := by
          rw [concatAll_append]; simp [concatAll]
      _ = concatAll (splitNl s) := by rw [← hlastval, hsplit]
      _ = _ := concatAll_splitNl s
  · rw [show scanLines s = (splitNl s).map dropCR by simp [scanLines, hlast]]
    rw [hparts _ fun l hl => hl]
    exact concatAll_splitNl s

theorem dropWhile_eq_self_of {p : Char → Bool} {l : List Char}
    (h : ∀ c ∈ l, p c = false) : l.dropWhile p = l := by
  cases l with
  | nil => rfl
  | cons c cs => simp [List.dropWhile_cons, h c (List.mem_cons_self _ _)]

theorem trimSpace_eq_self {l : List Char} (h : ∀ c ∈ l, goIsSpace c = false) :
    trimSpace l = l := by
  unfold trimSpace
  rw [dropWhile_eq_self_of h]
  rw [dropWhile_eq_self_of fun c hc => h c (List.mem_reverse.mp hc)]
  exact List.reverse_reverse l

theorem filter_dropWhile_space (l : List Char) :
    (l.dropWhile goIsSpace).filter isB64c = l.filter isB64c := by
  induction l with
  | nil => rfl
  | cons c cs ih =>
    by_cases hc : goIsSpace c = true
    · rw [List.dropWhile_cons_of_pos hc, ih, List.filter_cons, space_not_isB64c hc]
      simp
    · rw [List.dropWhile_cons_of_neg hc]

theorem filter_trimSpace (l : List Char) :
    (trimSpace l).filter isB64c = l.filter isB64c := by
  unfold trimSpace
  rw [List.filter_reverse, filter_dropWhile_space, List.filter_reverse,
    List.reverse_reverse, filter_dropWhile_space]

theorem removeNonBase64_eq_filter (s : List Char) :
    removeNonBase64 s = s.filter isB64c := by
  induction s with
  | nil => rfl
  | cons c cs ih =>
    simp only [removeNonBase64, List.filter_cons, ih]
    split <;> simp_all

theorem removeNonBase64_eq_self {s : List Char} (h : ∀ c ∈ s, isB64c c = true) :
    removeNonBase64 s = s := by
  rw [removeNonBase64_eq_filter]
  exact List.filter_eq_self.mpr h

theorem processLine_filter (l : List Char) :
    processLine true l = l.filter isB64c := by
  simp only [processLine, if_pos]
  rw [removeNonBase64_eq_filter, filter_trimSpace]

theorem processLine_clean {l : List Char} (ig : Bool) (h : ∀ c ∈ l, isB64c c = true) :
    processLine ig l = l := by
  have htrim : trimSpace l = l := trimSpace_eq_self fun c hc => isB64c_not_space (h c hc)
  unfold processLine
  split
  · rw [htrim, removeNonBase64_eq_self h]
  · exact htrim

/-! ## Wrapping lemmas -/

theorem wrapAux_mem {W : Nat} : ∀ {s : List Char} {i : Nat} {c : Char},
    c ∈ wrapAux W s i → c ∈ s ∨ c = '\n'
  | [], _, _, h => by cases h
  | a :: as, i, c, h => by
    simp only [wrapAux] at h
    rcases List.mem_append.mp h with h' | h'
    · split at h'
      · simp only [List.mem_cons, List.not_mem_nil, or_false] at h'
        rcases h' with h' | h'
        · exact Or.inr h'
        · exact Or.inl (h' ▸ List.mem_cons_self _ _)
      · simp only [List.mem_cons, List.not_mem_nil, or_false] at h'
        exact Or.inl (h' ▸ List.mem_cons_self _ _)
    · rcases wrapAux_mem h' with h'' | h''
      · exact Or.inl (List.mem_cons_of_mem _ h'')
      · exact Or.inr h''

theorem wrapAux_filter {W : Nat} : ∀ {s : List Char} (i : Nat),
    (∀ c ∈ s, c ≠ '\n') → (wrapAux W s i).filter (fun c => !(c == '\n')) = s
  | [], _, _ => rfl
  | a :: as, i, h => by
    have ha : a ≠ '\n' := h a (List.mem_cons_self _ _)
    have ih := wrapAux_filter (W := W) (s := as) (i + utf8Len a)
      fun c hc => h c (List.mem_cons_of_mem _ hc)
    simp only [wrapAux, List.filter_append, ih]
    split <;> simp [List.filter_cons, ha]

theorem wrapString_mem {s : List Char} {W : Int} {c : Char}
    (h : c ∈ wrapString s W) : c ∈ s ∨ c = '\n' := by
  unfold wrapString at h
  split at h
  · exact Or.inl h
  · exact wrapAux_mem h

theorem wrapString_filter {s : List Char} (W : Int) (h : ∀ c ∈ s, c ≠ '\n') :
    (wrapString s W).filter (fun c => !(c == '\n')) = s := by
  unfold wrapString
  split
  · exact List.filter_eq_self.mpr fun c hc => by simp [h c hc]
  · exact wrapAux_filter 0 h

/-! ## Runs without cancellation -/

theorem checkContextCancellation_none (t : Nat) :
    checkContextCancellation none t = none := rfl

theorem removeCtx_none : ∀ (s : List Char) (i t : Nat),
    removeNonBase64WithContext none s i t = .ok (removeNonBase64 s, t + pollsEvery1000 s i)
  | [], i, t => by simp [removeNonBase64WithContext, removeNonBase64, pollsEvery1000]
  | c :: cs, i, t => by
    simp only [removeNonBase64WithContext, removeNonBase64, pollsEvery1000,
      checkContextCancellation]
    split
    · rw [removeCtx_none cs (i + utf8Len c) (t + 1)]
      simp only [Except.ok.injEq, Prod.mk.injEq, true_and]
      omega
    · rw [removeCtx_none cs (i + utf8Len c) t]
      simp only [Except.ok.injEq, Prod.mk.injEq, true_and]
      omega

theorem wrapAuxCtx_none : ∀ (W : Nat) (s : List Char) (i t : Nat),
    wrapAuxCtx none W s i t = .ok (wrapAux W s i, t + pollsEvery1000 s i)
  | _, [], i, t => by simp [wrapAuxCtx, wrapAux, pollsEvery1000]
  | W, c :: cs, i, t => by
    simp only [wrapAuxCtx, wrapAux, pollsEvery1000, checkContextCancellation]
    split
    · rw [wrapAuxCtx_none W cs (i + utf8Len c) (t + 1)]
      simp only [Except.ok.injEq, Prod.mk.injEq, true_and]
      omega
    · rw [wrapAuxCtx_none W cs (i + utf8Len c) t]
      simp only [Except.ok.injEq, Prod.mk.injEq, true_and]
      omega

theorem wrapStringWithContext_none (s : List Char) (w : Int) (t : Nat) :
    wrapStringWithContext none s w t =
      .ok (wrapString s w, t + if w ≤ 0 then 0 else pollsEvery1000 s 0) := by
  unfold wrapStringWithContext wrapString
  split
  · rfl
  · exact wrapAuxCtx_none _ s 0 t

theorem lineLoop_none : ∀ (ig : Bool) (lines : List (List Char)) (acc : List Char) (t : Nat),
    lineLoop none ig lines acc t =
      .ok (acc ++ concatAll (lines.map (processLine ig)), t + linePolls ig lines)
  | ig, [], acc, t => by simp [lineLoop, concatAll, linePolls]
  | ig, l :: ls, acc, t => by
    simp only [lineLoop, linePolls, checkContextCancellation, List.map_cons, concatAll,
      processLine]
    split
    · rw [removeCtx_none (trimSpace l) 0 (t + 1)]
      simp only []
      rw [lineLoop_none ig ls (acc ++ removeNonBase64 (trimSpace l)) _]
      simp only [Except.ok.injEq, Prod.mk.injEq]
      exact ⟨by rw [List.append_assoc], by omega⟩
    · rw [lineLoop_none ig ls (acc ++ trimSpace l) (t + 1)]
      simp only [Except.ok.injEq, Prod.mk.injEq]
      exact ⟨by rw [List.append_assoc], by omega⟩

theorem encChunkLoop_none : ∀ (rf : Bool) (chunks : List (List Nat)) (acc : List Nat) (t : Nat),
    encChunkLoop none rf chunks acc t =
      if rf then .error (GoErr.readErr, t + chunks.length + 1)
      else .ok (acc ++ concatAll chunks, t + chunks.length + 1)
  | rf, [], acc, t => by
    simp only [encChunkLoop, checkContextCancellation, List.length_nil, concatAll]
    split <;> simp
  | rf, ch :: rest, acc, t => by
    simp only [encChunkLoop, checkContextCancellation]
    rw [encChunkLoop_none rf rest (acc ++ ch) (t + 1)]
    simp only [List.length_cons, concatAll]
    split
    · simp only [Except.error.injEq, Prod.mk.injEq, true_and]
      omega
    · simp only [Except.ok.injEq, Prod.mk.injEq]
      exact ⟨by rw [List.append_assoc], by omega⟩

theorem encodeSource_none_out (chunks : List (List Nat)) (fl : Flags) :
    (encodeSource none chunks false fl).out =
        wrapString (encodeB64 (concatAll chunks)) fl.wrapWidth ++ ['\n'] ∧
      (encodeSource none chunks false fl).err = none := by
  unfold encodeSource
  rw [checkContextCancellation_none, encChunkLoop_none]
  simp only [Bool.false_eq_true, if_false, List.nil_append]
  split
  · next hcond =>
    rw [wrapStringWithContext_none]
    exact ⟨rfl, rfl⟩
  · next hcond =>
    have hw : fl.wrapWidth ≤ 0 := by
      by_contra hw
      exact hcond ⟨Or.inr (by omega), by omega⟩
    constructor
    · simp only [wrapString, if_pos hw]
    · rfl

theorem decodeSource_none (fl : Flags) (text : List Char) (rf : Bool) :
    decodeSource none fl text rf =
      let P := concatAll ((scanLines text).map (processLine fl.ignoreGarbage))
      let T := 1 + linePolls fl.ignoreGarbage (scanLines text)
      if rf then ⟨[], [StderrMsg.readMsg], some GoErr.readErr, T + 1⟩
      else
        match decodeGo P with
        | none => ⟨[], [StderrMsg.decodeMsg], some GoErr.decodeErr, T + 1⟩
        | some decoded => ⟨decoded, [], none, T + 1⟩ := by
  simp only [decodeSource, checkContextCancellation_none, lineLoop_none, List.nil_append]

/-! ## The decode pipeline on clean wrapped text -/

theorem map_eq_self_of {f : α → α} : ∀ (l : List α), (∀ x ∈ l, f x = x) → l.map f = l
  | [], _ => rfl
  | x :: xs, h => by
    simp only [List.map_cons]
    rw [h x (List.mem_cons_self _ _), map_eq_self_of xs fun y hy => h y (List.mem_cons_of_mem _ hy)]

theorem clean_scan_concat {s : List Char} (hclean : ∀ c ∈ s, isB64c c = true)
    (W : Int) (ig : Bool) :
    concatAll ((scanLines (wrapString s W ++ ['\n'])).map (processLine ig)) = s := by
  have hTc : ∀ c ∈ wrapString s W ++ ['\n'], isB64c c = true ∨ c = '\n' := by
    intro c hc
    rcases List.mem_append.mp hc with h | h
    · rcases wrapString_mem h with h' | h'
      · exact Or.inl (hclean c h')
      · exact Or.inr h'
    · simp only [List.mem_singleton] at h
      exact Or.inr h
  have hTr : ∀ c ∈ wrapString s W ++ ['\n'], c ≠ '\r' := by
    intro c hc
    rcases hTc c hc with h | h
    · exact isB64c_ne_cr h
    · subst h; decide
  have hlines : ∀ l ∈ scanLines (wrapString s W ++ ['\n']), processLine ig l = l := by
    intro l hl
    refine processLine_clean ig fun c hc => ?_
    have hm := mem_scanLines hl hc
    rcases hTc c hm.1 with h | h
    · exact h
    · exact absurd h hm.2
  rw [map_eq_self_of _ hlines, concatAll_scanLines hTr, List.filter_append]
  rw [wrapString_filter W fun c hc => isB64c_ne_nl (hclean c hc)]
  have : List.filter (fun c => !(c == '\n')) ['\n'] = [] := by decide
  rw [this, List.append_nil]

/-- C1: for every byte sequence `B`, decoding the output of encoding `B`
(`decodeSource` applied line-by-line to the text produced by
`encodeSource`) yields exactly `B`, for every wrap width in
`{0, 10, 20, 76}` and for both settings of `ignoreGarbage` (and both
settings of the wrap flag). -/
theorem roundTrip_encode_decode (B : List Nat) (hB : ∀ b ∈ B, b < 256) (W : Int)
    (_hW : W = 0 ∨ W = 10 ∨ W = 20 ∨ W = 76) (dec ig wr : Bool) :
    (decodeSource none ⟨dec, ig, wr, W⟩
        ((encodeSource none [B] false ⟨dec, ig, wr, W⟩).out) false).out = B ∧
      (decodeSource none ⟨dec, ig, wr, W⟩
        ((encodeSource none [B] false ⟨dec, ig, wr, W⟩).out) false).err = none := by
  clear _hW
  have henc := encodeSource_none_out [B] ⟨dec, ig, wr, W⟩
  have hcat : concatAll [B] = B := by simp [concatAll]
  rw [hcat] at henc
  have hclean : ∀ c ∈ encodeB64 B, isB64c c = true := encodeB64_clean B hB
  rw [henc.1]
  have hP := clean_scan_concat hclean W ig
  have hdec : decodeGo (encodeB64 B) = some B := by
    unfold decodeGo
    have hid : (encodeB64 B).filter (fun c => !(c == '\r' || c == '\n')) = encodeB64 B :=
      List.filter_eq_self.mpr fun c hc => by
        have h1 := isB64c_ne_cr (hclean c hc)
        have h2 := isB64c_ne_nl (hclean c hc)
        simp [h1, h2]
    rw [hid]
    exact strictDecode_encodeB64 B hB
  rw [decodeSource_none]
  simp only [Bool.false_eq_true, if_false]
  rw [hP, hdec]
  exact ⟨rfl, rfl⟩

/-! ## Structure of the wrap loop on single-byte text -/

theorem utf8Len_pos (c : Char) : 1 ≤ utf8Len c := by
  unfold utf8Len
  repeat' split
  all_goals omega

theorem wrapAux_ne_nil {W : Nat} {s : List Char} (h : s ≠ []) (i : Nat) :
    wrapAux W s i ≠ [] := by
  cases s with
  | nil => exact absurd rfl h
  | cons c cs =>
    simp only [wrapAux]
    split <;> simp

theorem wrapAux_shift {W : Nat} : ∀ (s : List Char) (k : Nat), 1 ≤ k →
    wrapAux W s (W + k) = wrapAux W s k
  | [], _, _ => rfl
  | c :: cs, k, hk => by
    simp only [wrapAux]
    have hiff : (0 < W + k ∧ (W + k) % W = 0) ↔ (0 < k ∧ k % W = 0) := by
      rw [Nat.add_mod_left]
      exact ⟨fun ⟨_, m⟩ => ⟨hk, m⟩, fun ⟨_, m⟩ => ⟨by omega, m⟩⟩
    rw [if_congr hiff rfl rfl]
    have harg : W + k + utf8Len c = W + (k + utf8Len c) := by omega
    rw [harg, wrapAux_shift cs (k + utf8Len c) (by omega)]

theorem wrapAux_at_W {W : Nat} (hW : 0 < W) {s : List Char} (h : s ≠ []) :
    wrapAux W s W = '\n' :: wrapAux W s 0 := by
  cases s with
  | nil => exact absurd rfl h
  | cons c cs =>
    simp only [wrapAux]
    rw [if_pos ⟨hW, Nat.mod_self W⟩, if_neg (by omega)]
    have h1 := utf8Len_pos c
    rw [wrapAux_shift cs (utf8Len c) h1]
    simp

theorem wrapAux_take_phase {W : Nat} : ∀ (j : Nat) (s : List Char) (i : Nat),
    (∀ c ∈ s, utf8Len c = 1) → 1 ≤ i → i + j = W →
    wrapAux W s i = s.take j ++ wrapAux W (s.drop j) W
  | 0, s, i, _, _, hiw => by
    simp only [List.take_zero, List.drop_zero, List.nil_append]
    rw [show i = W by omega]
  | j + 1, [], i, _, _, _ => by simp [wrapAux]
  | j + 1, c :: cs, i, hs, hi, hiw => by
    have hlt : i < W := by omega
    simp only [wrapAux, List.take_succ_cons, List.drop_succ_cons]
    rw [if_neg (by rw [Nat.mod_eq_of_lt hlt]; omega)]
    rw [hs c (List.mem_cons_self _ _)]
    rw [wrapAux_take_phase j cs (i + 1)
      (fun d hd => hs d (List.mem_cons_of_mem _ hd)) (by omega) (by omega)]
    simp

theorem wrapAux_chunk {W : Nat} (hW : 0 < W) {s : List Char}
    (hs : ∀ c ∈ s, utf8Len c = 1) :
    wrapAux W s 0 = s.take W ++
      (if s.drop W = [] then [] else '\n' :: wrapAux W (s.drop W) 0) := by
  cases s with
  | nil => simp [wrapAux]
  | cons c cs =>
    have hWsucc : W = (W - 1) + 1 := by omega
    simp only [wrapAux]
    rw [if_neg (by omega), hs c (List.mem_cons_self _ _)]
    rw [wrapAux_take_phase (W - 1) cs 1
      (fun d hd => hs d (List.mem_cons_of_mem _ hd)) (by omega) (by omega)]
    rw [hWsucc, List.take_succ_cons, List.drop_succ_cons, ← hWsucc]
    by_cases hd : cs.drop (W - 1) = []
    · rw [hd, if_pos rfl]
      simp [wrapAux]
    · rw [if_neg hd, wrapAux_at_W hW hd]
      simp

theorem wrapAux_lines {W : Nat} (hW : 0 < W) : ∀ (N : Nat) (s : List Char),
    s.length ≤ N → (∀ c ∈ s, utf8Len c = 1) → (∀ c ∈ s, c ≠ '\n') →
    ∀ l ∈ (splitNl (wrapAux W s 0)).dropLast, l.length = W := by
  intro N
  induction N with
  | zero =>
    intro s hlen _ _
    have : s = [] := List.length_eq_zero.mp (by omega)
    subst this
    simp [wrapAux, splitNl]
  | succ n ih =>
    intro s hlen hs1 hs2 l hl
    rw [wrapAux_chunk hW hs1] at hl
    by_cases hd : s.drop W = []
    · rw [if_pos hd, List.append_nil] at hl
      have hnil : splitNl (s.take W) = [s.take W] :=
        splitNl_no_nl fun c hc => hs2 c (List.take_subset _ _ hc)
      rw [hnil] at hl
      simp at hl
    · rw [if_neg hd] at hl
      have hWlen : W < s.length := by
        by_contra hc
        exact hd (List.drop_eq_nil_of_le (by omega))
      rw [splitNl_append_nl _ fun c hc => hs2 c (List.take_subset _ _ hc)] at hl
      have hne := splitNl_ne_nil (wrapAux W (s.drop W) 0)
      have hcons : (s.take W :: splitNl (wrapAux W (s.drop W) 0)).dropLast =
          s.take W :: (splitNl (wrapAux W (s.drop W) 0)).dropLast := by
        rcases hp : splitNl (wrapAux W (s.drop W) 0) with _ | ⟨t, ts⟩
        · exact absurd hp hne
        · rfl
      rw [hcons] at hl
      rcases List.mem_cons.mp hl with h | h
      · subst h
        rw [List.length_take]
        omega
      · exact ih (s.drop W) (by simp; omega)
          (fun c hc => hs1 c (List.drop_subset _ _ hc))
          (fun c hc => hs2 c (List.drop_subset _ _ hc)) l h

theorem wrapAux_getLast {W : Nat} : ∀ (s : List Char) (i : Nat), s ≠ [] →
    (wrapAux W s i).getLast? = s.getLast?
  | [], _, h => absurd rfl h
  | [c], i, _ => by
    simp only [wrapAux]
    split <;> simp
  | c :: c' :: cs, i, _ => by
    have heq : wrapAux W (c :: c' :: cs) i =
        (if 0 < i ∧ i % W = 0 then ['\n', c] else [c]) ++
          wrapAux W (c' :: cs) (i + utf8Len c) := rfl
    rw [heq]
    have hne : wrapAux W (c' :: cs) (i + utf8Len c) ≠ [] := wrapAux_ne_nil (by simp) _
    rw [List.getLast?_append_of_ne_nil _ hne,
      wrapAux_getLast (c' :: cs) (i + utf8Len c) (by simp)]
    exact List.getLast?_cons_cons.symm

/-! ## Runs under a cancelled context -/

theorem checkCancel_some (n t : Nat) :
    checkContextCancellation (some n) t =
      if n ≤ t then some GoErr.cancelled else none := rfl

theorem encChunkLoop_cancel : ∀ (rf : Bool) (chunks : List (List Nat)) (acc : List Nat)
    (t n : Nat), t ≤ n → n < t + chunks.length + 1 →
    encChunkLoop (some n) rf chunks acc t = .error (GoErr.cancelled, n + 1)
  | rf, [], acc, t, n, htn, hlt => by
    have hnt : n = t := by simp at hlt; omega
    simp only [encChunkLoop, checkCancel_some]
    rw [if_pos (by omega)]
    rw [hnt]
  | rf, ch :: rest, acc, t, n, htn, hlt => by
    simp only [encChunkLoop, checkCancel_some]
    by_cases hnt : n ≤ t
    · rw [if_pos hnt]
      have : n = t := by omega
      rw [this]
    · rw [if_neg hnt]
      exact encChunkLoop_cancel rf rest (acc ++ ch) (t + 1) n (by omega)
        (by simp at hlt ⊢; omega)

theorem encChunkLoop_late : ∀ (rf : Bool) (chunks : List (List Nat)) (acc : List Nat)
    (t n : Nat), t + chunks.length + 1 ≤ n →
    encChunkLoop (some n) rf chunks acc t = encChunkLoop none rf chunks acc t
  | rf, [], acc, t, n, h => by
    simp only [encChunkLoop, checkCancel_some, checkContextCancellation]
    rw [if_neg (by simp at h; omega)]
  | rf, ch :: rest, acc, t, n, h => by
    simp only [encChunkLoop, checkCancel_some, checkContextCancellation]
    rw [if_neg (by simp at h; omega)]
    exact encChunkLoop_late rf rest (acc ++ ch) (t + 1) n (by simp at h ⊢; omega)

theorem removeCtx_cancel : ∀ (s : List Char) (i t n : Nat), t ≤ n →
    n < t + pollsEvery1000 s i →
    removeNonBase64WithContext (some n) s i t = .error (GoErr.cancelled, n + 1)
  | [], i, t, n, htn, hlt => by simp [pollsEvery1000] at hlt; omega
  | c :: cs, i, t, n, htn, hlt => by
    simp only [pollsEvery1000] at hlt
    simp only [removeNonBase64WithContext, checkCancel_some]
    by_cases hp : i % 1000 = 0
    · rw [if_pos hp] at hlt ⊢
      by_cases hnt : n ≤ t
      · rw [if_pos hnt]
        have : n = t := by omega
        rw [this]
      · rw [if_neg hnt]
        rw [removeCtx_cancel cs (i + utf8Len c) (t + 1) n (by omega) (by omega)]
    · rw [if_neg hp] at hlt ⊢
      rw [removeCtx_cancel cs (i + utf8Len c) t n (by omega) (by omega)]

theorem removeCtx_late : ∀ (s : List Char) (i t n : Nat), t + pollsEvery1000 s i ≤ n →
    removeNonBase64WithContext (some n) s i t = removeNonBase64WithContext none s i t
  | [], _, _, _, _ => rfl
  | c :: cs, i, t, n, h => by
    simp only [pollsEvery1000] at h
    simp only [removeNonBase64WithContext, checkCancel_some, checkContextCancellation]
    by_cases hp : i % 1000 = 0
    · simp only [if_pos hp] at h ⊢
      rw [if_neg (by omega)]
      rw [removeCtx_late cs (i + utf8Len c) (t + 1) n (by omega)]
    · simp only [if_neg hp] at h ⊢
      rw [removeCtx_late cs (i + utf8Len c) t n (by omega)]

theorem wrapAuxCtx_cancel : ∀ (W : Nat) (s : List Char) (i t n : Nat), t ≤ n →
    n < t + pollsEvery1000 s i →
    wrapAuxCtx (some n) W s i t = .error (GoErr.cancelled, n + 1)
  | _, [], i, t, n, htn, hlt => by simp [pollsEvery1000] at hlt; omega
  | W, c :: cs, i, t, n, htn, hlt => by
    simp only [pollsEvery1000] at hlt
    simp only [wrapAuxCtx, checkCancel_some]
    by_cases hp : i % 1000 = 0
    · rw [if_pos hp] at hlt ⊢
      by_cases hnt : n ≤ t
      · rw [if_pos hnt]
        have : n = t := by omega
        rw [this]
      · rw [if_neg hnt]
        rw [wrapAuxCtx_cancel W cs (i + utf8Len c) (t + 1) n (by omega) (by omega)]
    · rw [if_neg hp] at hlt ⊢
      rw [wrapAuxCtx_cancel W cs (i + utf8Len c) t n (by omega) (by omega)]

theorem lineLoop_cancel : ∀ (ig : Bool) (lines : List (List Char)) (acc : List Char)
    (t n : Nat), t ≤ n → n < t + linePolls ig lines →
    lineLoop (some n) ig lines acc t = .error (GoErr.cancelled, n + 1)
  | ig, [], acc, t, n, htn, hlt => by simp [linePolls] at hlt; omega
  | ig, l :: ls, acc, t, n, htn, hlt => by
    simp only [linePolls] at hlt
    simp only [lineLoop, checkCancel_some]
    by_cases hnt : n ≤ t
    · rw [if_pos hnt]
      have : n = t := by omega
      rw [this]
    · rw [if_neg hnt]
      by_cases hig : ig = true
      · rw [if_pos hig]
        rw [if_pos hig] at hlt
        by_cases hw : n < t + 1 + pollsEvery1000 (trimSpace l) 0
        · rw [removeCtx_cancel (trimSpace l) 0 (t + 1) n (by omega) (by omega)]
        · rw [removeCtx_late (trimSpace l) 0 (t + 1) n (by omega), removeCtx_none]
          simp only []
          exact lineLoop_cancel ig ls (acc ++ removeNonBase64 (trimSpace l))
            (t + 1 + pollsEvery1000 (trimSpace l) 0) n (by omega) (by omega)
      · rw [if_neg hig]
        rw [if_neg hig] at hlt
        exact lineLoop_cancel ig ls (acc ++ trimSpace l) (t + 1) n (by omega) (by omega)

theorem lineLoop_late : ∀ (ig : Bool) (lines : List (List Char)) (acc : List Char)
    (t n : Nat), t + linePolls ig lines ≤ n →
    lineLoop (some n) ig lines acc t = lineLoop none ig lines acc t
  | _, [], _, _, _, _ => rfl
  | ig, l :: ls, acc, t, n, h => by
    simp only [linePolls] at h
    simp only [lineLoop, checkCancel_some, checkContextCancellation]
    rw [if_neg (by split at h <;> omega)]
    by_cases hig : ig = true
    · simp only [if_pos hig] at h ⊢
      simp only [removeCtx_late (trimSpace l) 0 (t + 1) n (by omega), removeCtx_none]
      exact lineLoop_late ig ls (acc ++ removeNonBase64 (trimSpace l))
        (t + 1 + pollsEvery1000 (trimSpace l) 0) n (by omega)
    · simp only [if_neg hig] at h ⊢
      exact lineLoop_late ig ls (acc ++ trimSpace l) (t + 1) n (by omega)

theorem encodeSource_cancel (chunks : List (List Nat)) (rf : Bool) (fl : Flags) (n : Nat)
    (hn : n < (encodeSource none chunks rf fl).polls) :
    encodeSource (some n) chunks rf fl = ⟨[], some GoErr.cancelled, n + 1⟩ := by
  by_cases h0 : n = 0
  · subst h0
    simp [encodeSource, checkCancel_some]
  · have hpos : 1 ≤ n := by omega
    rw [show encodeSource (some n) chunks rf fl =
      (match encChunkLoop (some n) rf chunks [] 1 with
        | .error (e, t) => ⟨[], some e, t⟩
        | .ok (allData, t) =>
          let encoded := encodeB64 allData
          if (fl.wrap = true ∨ 0 < fl.wrapWidth) ∧ 0 < fl.wrapWidth then
            match wrapStringWithContext (some n) encoded fl.wrapWidth t with
            | .error (e, t') => ⟨[], some e, t'⟩
            | .ok (wrapped, t') => ⟨wrapped ++ ['\n'], none, t'⟩
          else ⟨encoded ++ ['\n'], none, t⟩ : EncRes)
      by simp [encodeSource, checkCancel_some, h0]]
    by_cases hc : n < 1 + chunks.length + 1
    · rw [encChunkLoop_cancel rf chunks [] 1 n hpos (by omega)]
    · rw [encChunkLoop_late rf chunks [] 1 n (by omega)]
      rw [encChunkLoop_none]
      unfold encodeSource at hn
      rw [checkContextCancellation_none, encChunkLoop_none] at hn
      by_cases hrf : rf = true
      · rw [if_pos hrf] at hn ⊢
        simp only [] at hn
        omega
      · rw [if_neg hrf] at hn ⊢
        simp only [List.nil_append] at hn ⊢
        by_cases hcond : (fl.wrap = true ∨ 0 < fl.wrapWidth) ∧ 0 < fl.wrapWidth
        · rw [if_pos hcond] at hn ⊢
          rw [wrapStringWithContext_none] at hn
          simp only [] at hn
          have hwn : ¬ fl.wrapWidth ≤ 0 := by omega
          rw [if_neg hwn] at hn
          unfold wrapStringWithContext
          rw [if_neg hwn]
          rw [wrapAuxCtx_cancel fl.wrapWidth.toNat (encodeB64 (concatAll chunks)) 0
            (1 + chunks.length + 1) n (by omega) (by omega)]
        · rw [if_neg hcond] at hn ⊢
          simp only [] at hn
          omega

theorem decodeSource_cancel (fl : Flags) (text : List Char) (rf : Bool) (n : Nat)
    (hn : n < (decodeSource none fl text rf).polls) :
    decodeSource (some n) fl text rf = ⟨[], [], some GoErr.cancelled, n + 1⟩ := by
  have hpolls : (decodeSource none fl text rf).polls =
      1 + linePolls fl.ignoreGarbage (scanLines text) + 1 := by
    rw [decodeSource_none]
    simp only []
    split
    · rfl
    · split <;> rfl
  rw [hpolls] at hn
  by_cases h0 : n = 0
  · subst h0
    simp [decodeSource, checkCancel_some]
  · rw [show decodeSource (some n) fl text rf =
      (match lineLoop (some n) fl.ignoreGarbage (scanLines text) [] 1 with
        | .error (e, t) => ⟨[], [], some e, t⟩
        | .ok (encodedData, t) =>
          match checkContextCancellation (some n) t with
          | some e => ⟨[], [], some e, t + 1⟩
          | none =>
            if rf then ⟨[], [StderrMsg.readMsg], some GoErr.readErr, t + 1⟩
            else
              match decodeGo encodedData with
              | none => ⟨[], [StderrMsg.decodeMsg], some GoErr.decodeErr, t + 1⟩
              | some decoded => ⟨decoded, [], none, t + 1⟩ : DecRes)
      by simp [decodeSource, checkCancel_some, h0]]
    by_cases hc : n < 1 + linePolls fl.ignoreGarbage (scanLines text)
    · rw [lineLoop_cancel fl.ignoreGarbage (scanLines text) [] 1 n (by omega) (by omega)]
    · rw [lineLoop_late fl.ignoreGarbage (scanLines text) [] 1 n (by omega), lineLoop_none]
      simp only [checkCancel_some]
      rw [if_pos (by omega)]
      have : n = 1 + linePolls fl.ignoreGarbage (scanLines text) := by omega
      rw [this]

/-! ## Claim theorems -/

/-- C1: for every byte sequence `B`, decoding the output of encoding `B`
yields exactly `B`, for every wrap width in `{0, 10, 20, 76}` and both
settings of `ignoreGarbage` — witness instantiation at `B = [72, 105]`,
width 20. -/
theorem roundTrip_encode_decode_witness :
    (decodeSource none ⟨true, false, false, 20⟩
        ((encodeSource none [[72, 105]] false ⟨true, false, false, 20⟩).out) false).out =
      [72, 105] :=
  (roundTrip_encode_decode [72, 105] (by decide) 20 (Or.inr (Or.inr (Or.inl rfl)))
    true false false).1

/-- C2: once the cancellation signal has fired, `encodeSource` and
`decodeSource` write no output to the sink and terminate with the
cancellation error, which is distinct from the read, decode and write
error kinds; a cancellation observed at any poll point of the run
(initial check, per-chunk/per-line checks, in-loop checks of the wrap and
filter passes) aborts the invocation. -/
theorem cancellation_aborts (chunks : List (List Nat)) (text : List Char) (rf rf' : Bool)
    (fl fl' : Flags) (n m : Nat)
    (hn : n < (encodeSource none chunks rf fl).polls)
    (hm : m < (decodeSource none fl' text rf').polls) :
    encodeSource (some n) chunks rf fl = ⟨[], some GoErr.cancelled, n + 1⟩ ∧
      decodeSource (some m) fl' text rf' = ⟨[], [], some GoErr.cancelled, m + 1⟩ ∧
      GoErr.cancelled ≠ GoErr.readErr ∧ GoErr.cancelled ≠ GoErr.decodeErr ∧
      GoErr.cancelled ≠ GoErr.writeErr :=
  ⟨encodeSource_cancel chunks rf fl n hn, decodeSource_cancel fl' text rf' m hm,
    by decide, by decide, by decide⟩

/-- C2 witness: cancellation at the very first poll aborts a concrete
encode and a concrete decode invocation with no output. -/
theorem cancellation_aborts_witness :
    0 < (encodeSource none [[1, 2, 3]] false ⟨false, false, false, 76⟩).polls ∧
      0 < (decodeSource none ⟨true, false, false, 76⟩ ("QQ==".toList) false).polls ∧
      encodeSource (some 0) [[1, 2, 3]] false ⟨false, false, false, 76⟩ =
        ⟨[], some GoErr.cancelled, 1⟩ ∧
      decodeSource (some 0) ⟨true, false, false, 76⟩ ("QQ==".toList) false =
        ⟨[], [], some GoErr.cancelled, 1⟩ :=
  ⟨by decide, by decide,
    (cancellation_aborts [[1, 2, 3]] ("QQ==".toList) false false
      ⟨false, false, false, 76⟩ ⟨true, false, false, 76⟩ 0 0 (by decide) (by decide)).1,
    (cancellation_aborts [[1, 2, 3]] ("QQ==".toList) false false
      ⟨false, false, false, 76⟩ ⟨true, false, false, 76⟩ 0 0 (by decide) (by decide)).2.1⟩

/-- C3: when the concatenated processed text of a source is not valid
padded base64, `decodeSource` reports a decode-error message on the error
channel, returns the decode error, and writes zero bytes to the output
sink. -/
theorem decode_failure_all_or_nothing (fl : Flags) (text : List Char)
    (h : decodeGo (concatAll ((scanLines text).map (processLine fl.ignoreGarbage))) = none) :
    (decodeSource none fl text false).out = [] ∧
      (decodeSource none fl text false).err = some GoErr.decodeErr ∧
      (decodeSource none fl text false).stderr = [StderrMsg.decodeMsg] := by
  rw [decodeSource_none]
  simp only [Bool.false_eq_true, if_false, h]
  exact ⟨by trivial, by trivial, by trivial⟩

/-- C3 witness: the unpadded text `"SGVsbG8"` fails to decode and
produces no output bytes. -/
theorem decode_failure_all_or_nothing_witness :
    decodeGo (concatAll ((scanLines ("SGVsbG8".toList)).map (processLine false))) = none ∧
      (decodeSource none ⟨true, false, false, 76⟩ ("SGVsbG8".toList) false).out = [] ∧
      (decodeSource none ⟨true, false, false, 76⟩ ("SGVsbG8".toList) false).err =
        some GoErr.decodeErr :=
  ⟨by decide,
    (decode_failure_all_or_nothing ⟨true, false, false, 76⟩ ("SGVsbG8".toList) (by decide)).1,
    (decode_failure_all_or_nothing ⟨true, false, false, 76⟩ ("SGVsbG8".toList) (by decide)).2.1⟩

/-- C4 counterexample: decoding the single line `"invalid!!!"` with
`ignoreGarbage = true` does NOT return without error — `decodeSource`
returns a decode error. -/
theorem ignoreGarbage_invalid_counterexample :
    ¬ ((decodeSource none ⟨true, true, false, 76⟩ ("invalid!!!".toList) false).err = none) := by
  decide

/-- C4 (amended): decoding the single line `"invalid!!!"` with
`ignoreGarbage = true` filters the line to its seven base64-alphabet
characters `"invalid"`, whose length is not a multiple of four, so the
decode fails: `decodeSource` reports a decode error on the error channel,
returns it, and writes zero bytes to the output sink. -/
theorem ignoreGarbage_invalid_decode_fails :
    processLine true ("invalid!!!".toList) = "invalid".toList ∧
      (decodeSource none ⟨true, true, false, 76⟩ ("invalid!!!".toList) false).out = [] ∧
      (decodeSource none ⟨true, true, false, 76⟩ ("invalid!!!".toList) false).err =
        some GoErr.decodeErr ∧
      (decodeSource none ⟨true, true, false, 76⟩ ("invalid!!!".toList) false).stderr =
        [StderrMsg.decodeMsg] := by
  decide

/-- C5: the `Base64` constructor cannot keep a wrap width of zero — an
explicit zero is rewritten to the default 76, after which `encodeSource`
wraps its output at column 76 (here: 60 input bytes, 80 encoded
characters, broken after character 76), contradicting "0 disables
wrapping". -/
theorem wrapWidth_zero_forced_to_default :
    (Base64 ⟨false, false, false, 0⟩).wrapWidth = 76 ∧
      (encodeSource none [List.replicate 60 0] false (Base64 ⟨false, false, false, 0⟩)).out =
        (List.replicate 76 'A' ++ '\n' :: List.replicate 4 'A') ++ ['\n'] ∧
      '\n' ∈ wrapString (encodeB64 (List.replicate 60 0))
        (Base64 ⟨false, false, false, 0⟩).wrapWidth := by
  decide

/-- C6 counterexample: `wrapString` counts Go byte offsets, not runes —
on `"¡ab"` (where `'¡'` is two bytes) with width 2 the first output line
has one character, not two. -/
theorem wrapString_byteIndex_counterexample :
    wrapString ("¡ab".toList) 2 = "¡\nab".toList ∧
      ¬ (∀ l ∈ (splitNl (wrapString ("¡ab".toList) 2)).dropLast, l.length = 2) := by
  decide

/-- C6 (amended): for strings of single-byte, non-newline characters
(always the case for base64 output) and width `W > 0`, `wrapString`
inserts a newline after every `W` characters and never after the final
segment: every output line except the last has exactly `W` characters,
deleting the newlines recovers the input, and the last character of the
output is the last character of the input; width `W ≤ 0` returns the
input unchanged. -/
theorem wrapString_wraps_singleByte (s : List Char) (W : Int)
    (hs : ∀ c ∈ s, utf8Len c = 1 ∧ c ≠ '\n') :
    (0 < W →
      ((wrapString s W).filter (fun c => !(c == '\n')) = s ∧
        (∀ l ∈ (splitNl (wrapString s W)).dropLast, l.length = W.toNat) ∧
        (s ≠ [] → (wrapString s W).getLast? = s.getLast?))) ∧
      (W ≤ 0 → wrapString s W = s) := by
  constructor
  · intro hW
    have hW' : ¬ W ≤ 0 := by omega
    have hWnat : 0 < W.toNat := by omega
    unfold wrapString
    rw [if_neg hW']
    refine ⟨wrapAux_filter 0 fun c hc => (hs c hc).2, ?_, ?_⟩
    · exact wrapAux_lines hWnat s.length s le_rfl (fun c hc => (hs c hc).1)
        (fun c hc => (hs c hc).2)
    · intro hne
      exact wrapAux_getLast s 0 hne
  · intro hW
    unfold wrapString
    rw [if_pos hW]

/-- C6 witness: wrapping `"ABCDE"` at width 2 and deleting the inserted
newlines recovers the input. -/
theorem wrapString_wraps_singleByte_witness :
    (wrapString ("ABCDE".toList) 2).filter (fun c => !(c == '\n')) = "ABCDE".toList :=
  ((wrapString_wraps_singleByte ("ABCDE".toList) 2 (by decide)).1 (by decide)).1

/-- C7: the per-line processing of `decodeSource` amounts to: when
`ignoreGarbage` is true the line is filtered down to the base64 alphabet
characters (whitespace included among the discarded characters — the
trim that the code also performs has no observable effect), and when it
is false the line is only trimmed. -/
theorem perLine_trim_or_filter (ig : Bool) (l : List Char) :
    processLine ig l = if ig then l.filter isB64c else trimSpace l := by
  cases ig
  · rfl
  · exact processLine_filter l

/-- C8: `removeNonBase64` is exactly the subsequence of its input made of
the base64-alphabet characters (`A-Z a-z 0-9 + / =`), in order; on a
string of only such characters it is the identity. -/
theorem removeNonBase64_subsequence (s : List Char) :
    removeNonBase64 s = s.filter isB64c ∧
      List.Sublist (removeNonBase64 s) s ∧
      ((∀ c ∈ s, isB64c c = true) → removeNonBase64 s = s) := by
  refine ⟨removeNonBase64_eq_filter s, ?_, fun h => removeNonBase64_eq_self h⟩
  rw [removeNonBase64_eq_filter]
  exact List.filter_sublist s

/-- C8 witness: filtering the already-clean string `"SGVs"` returns it
unchanged. -/
theorem removeNonBase64_subsequence_witness :
    removeNonBase64 ("SGVs".toList) = "SGVs".toList :=
  (removeNonBase64_subsequence ("SGVs".toList)).2.2 (by decide)

/-- C9: encoding an empty byte source succeeds and emits only the single
trailing newline; decoding an empty text source succeeds and writes zero
bytes. -/
theorem empty_input_empty_output (fl : Flags) :
    (encodeSource none [] false fl).out = ['\n'] ∧
      (encodeSource none [] false fl).err = none ∧
      (decodeSource none fl [] false).out = [] ∧
      (decodeSource none fl [] false).err = none := by
  have henc := encodeSource_none_out [] fl
  have hwrap : wrapString (encodeB64 (concatAll ([] : List (List Nat)))) fl.wrapWidth = [] := by
    unfold wrapString
    split <;> rfl
  refine ⟨?_, henc.2, rfl, rfl⟩
  rw [henc.1, hwrap]
  rfl

/-- C10: when the cancellation signal never fires, the context-aware
variants refine the pure functions: `wrapStringWithContext` returns
`wrapString` of its input and `removeNonBase64WithContext` returns
`removeNonBase64` of its input, both without error. -/
theorem context_variants_refine (s : List Char) (w : Int) (t : Nat) :
    (∃ t1, wrapStringWithContext none s w t = .ok (wrapString s w, t1)) ∧
      (∃ t2, removeNonBase64WithContext none s 0 t = .ok (removeNonBase64 s, t2)) :=
  ⟨⟨_, wrapStringWithContext_none s w t⟩, ⟨_, removeCtx_none s 0 t⟩⟩

end YupshBase64
